import Mathlib

/-!
Verification development for the TwinRX daughterboard driver
(`host/lib/usrp/dboard/db_twinrx.cpp`) and the declarative
dependency-resolution ("expert") engine it is built on.

The expert engine itself (`uhd/experts/expert_container`, node and worker
classes) is not among the provided sources; only its caller
`db_twinrx.cpp` is.  Following the specification, the engine is modelled
here from the spec's own description (value nodes with coercion and
equal-value suppression, workers with declared input/output sets,
dirty-driven incremental resolution, Kahn-style graph finalize, dual
desired/coerced properties with auto-resolve policies).  The TwinRX
specific functions (`get_lo_locked`, the bandwidth coercer,
`make_twinrx_fe`) are translated directly from the C++ source.
-/

set_option linter.unusedSectionVars false

namespace TwinrxSpec

/-- Modelled from the spec: engine state of one resolution domain.
Each node (named by a string) has a current value and a dirty flag
("a node whose value changed since its dependents last ran"). -/
structure EState (V : Type) where
  val : String → V
  dirty : String → Bool

/-- Modelled from the spec: a worker is a computation unit with
declared input and output node sets; `f` maps the values read from the
declared inputs to the values written to the declared outputs. -/
structure Worker (V : Type) where
  name : String
  inputs : List String
  outputs : List String
  f : List V → List V

variable {V : Type} [DecidableEq V]

/-- Modelled from the spec: `set(value)` on a node.  The value is first
passed through the node's coercer `co`; if the effective stored result
equals the current stored value the set is a no-op (equal-value
suppression), otherwise the coerced value is stored and the node is
marked dirty. -/
def setNode (co : String → V → V) (n : String) (v : V) (st : EState V) : EState V :=
  if co n v = st.val n then st
  else { val := fun x => if x = n then co n v else st.val x,
         dirty := fun x => if x = n then true else st.dirty x }

/-- A sequence of writes `(name, value)` applied through `setNode`. -/
def writeList (co : String → V → V) (ps : List (String × V)) (st : EState V) :
    EState V :=
  ps.foldl (fun s p => setNode co p.1 p.2 s) st

/-- Modelled from the spec: the scheduler invokes a worker's `resolve()`:
the worker reads current values from its declared input nodes and writes
its declared output nodes via their `set`. -/
def runWorker (co : String → V → V) (w : Worker V) (st : EState V) : EState V :=
  writeList co (w.outputs.zip (w.f (w.inputs.map st.val))) st

/-- Modelled from the spec: full resolve executes a list of workers in
order, each exactly once. -/
def runList (co : String → V → V) (l : List (Worker V)) (st : EState V) :
    EState V :=
  l.foldl (fun s w => runWorker co w s) st

/-- Modelled from the spec: incremental resolve processes workers in
topological order; a worker runs exactly when one of its declared inputs
is dirty, and its own `set` calls mark changed outputs dirty for further
propagation (unchanged outputs do not propagate). -/
def incResolve (co : String → V → V) (l : List (Worker V)) (st : EState V) :
    EState V :=
  l.foldl (fun s w => if w.inputs.any s.dirty then runWorker co w s else s) st

/-- Modelled from the spec: a valid topological order — no worker's
outputs feed a worker placed earlier in the list. -/
def validOrder (l : List (Worker V)) : Prop :=
  l.Pairwise (fun e later => ∀ x ∈ later.outputs, x ∉ e.inputs)

/-- Modelled from the spec: single-writer invariant — two distinct
workers never declare the same output node. -/
def singleWriter (l : List (Worker V)) : Prop :=
  l.Pairwise (fun a b => ∀ x ∈ a.outputs, x ∉ b.outputs)

/-- Modelled from the spec: a worker's declared input/output sets must
not alias — no node is both a declared input and a declared output of
the same worker. -/
def noAlias (l : List (Worker V)) : Prop :=
  ∀ w ∈ l, ∀ x ∈ w.outputs, x ∉ w.inputs

/-- Every worker's declared output set lists each node once. -/
def nodupOutputs (l : List (Worker V)) : Prop :=
  ∀ w ∈ l, w.outputs.Nodup

/-- Modelled from the spec: the error taxonomy of the engine
(NotFound, TypeMismatch, ReadOnly, StateError, CycleDetected,
SingleWriterViolation, Unresolved). -/
inductive ExpertError where
  | notFound
  | typeMismatch
  | readOnly
  | stateError
  | cycleDetected
  | singleWriterViolation
  | unresolved
  deriving DecidableEq

/-- Worker `w` depends on worker `u`: some declared output of `u` is a
declared input of `w`. -/
def dependsOn (w u : Worker V) : Prop :=
  ∃ x ∈ u.outputs, x ∈ w.inputs

/-- A worker is ready (zero in-degree) relative to a set of unprocessed
workers: none of them produces one of its inputs. -/
def isReady (all : List (Worker V)) (w : Worker V) : Bool :=
  all.all (fun u => u.outputs.all (fun x => !(w.inputs.contains x)))

/-- Extract the first ready worker from the unprocessed list. -/
def pickReady (all : List (Worker V)) : List (Worker V) →
    Option (Worker V × List (Worker V))
  | [] => none
  | w :: rest =>
      if isReady all w then some (w, rest)
      else
        match pickReady all rest with
        | some (u, rest') => some (u, w :: rest')
        | none => none

/-- Modelled from the spec: graph finalize via Kahn's algorithm —
repeatedly remove a zero-in-degree worker; if none remains removable
while unprocessed workers remain, fail with CycleDetected.  The fuel
argument (instantiated with the worker count) makes termination
structural. -/
def kahnAux : Nat → List (Worker V) → List (Worker V) →
    Except ExpertError (List (Worker V))
  | _, [], acc => .ok acc.reverse
  | 0, _ :: _, _ => .error .cycleDetected
  | n + 1, w :: rest, acc =>
      match pickReady (w :: rest) (w :: rest) with
      | none => .error .cycleDetected
      | some (u, rem') => kahnAux n rem' (u :: acc)

/-- Modelled from the spec: graph finalize — topological sort of all
registered workers, failing with CycleDetected when the sort cannot
complete. -/
def graph_finalize (ws : List (Worker V)) : Except ExpertError (List (Worker V)) :=
  kahnAux ws.length ws []

/-- Modelled from the spec: full resolve — finalize the graph, then
execute every worker exactly once in the topological order.  On a
finalize failure no worker is executed and no state is produced. -/
def resolve_all (co : String → V → V) (ws : List (Worker V)) (st : EState V) :
    Except ExpertError (EState V) :=
  match graph_finalize ws with
  | .error e => .error e
  | .ok ord => .ok (runList co ord st)

/-- The worker set contains a dependency cycle: some nonempty subset in
which every worker depends on another member of the subset. -/
def hasCycle (ws : List (Worker V)) : Prop :=
  ∃ c : List (Worker V), c ≠ [] ∧ (∀ w ∈ c, w ∈ ws) ∧
    ∀ w ∈ c, ∃ u ∈ c, dependsOn w u

/-- Modelled from the spec: worker registration — registering a worker
that declares an output already produced by a previously registered
worker fails with SingleWriterViolation; otherwise the worker is
appended to the registry. -/
def register_worker (ws : List (Worker V)) (w : Worker V) :
    Except ExpertError (List (Worker V)) :=
  if w.outputs.any (fun x => ws.any (fun u => u.outputs.contains x)) then
    .error .singleWriterViolation
  else .ok (ws ++ [w])

/-- Register a list of workers in order, starting from an empty registry. -/
def register_all (l : List (Worker V)) : Except ExpertError (List (Worker V)) :=
  l.foldlM register_worker []

/-- Modelled from the spec: `get()` on a node — if a publisher is
bound, invoke it and return its result; otherwise return the stored
value.  A publisher in the property tree is a nullary callback
(`set_publisher([this]() { ... })` in the source). -/
def getNode (pub : String → Option (Unit → V)) (st : EState V) (n : String) : V :=
  match pub n with
  | some p => p ()
  | none => st.val n

/-- Modelled from the spec: the auto-resolve policy of a property node
(`{on-write, on-read, on-read-and-write, manual}`); names follow the
constants used in the source. -/
inductive auto_resolve_policy where
  | AUTO_RESOLVE_OFF
  | AUTO_RESOLVE_ON_READ
  | AUTO_RESOLVE_ON_WRITE
  | AUTO_RESOLVE_ON_READ_WRITE
  deriving DecidableEq

def resolvesOnWrite : auto_resolve_policy → Bool
  | .AUTO_RESOLVE_ON_WRITE => true
  | .AUTO_RESOLVE_ON_READ_WRITE => true
  | _ => false

def resolvesOnRead : auto_resolve_policy → Bool
  | .AUTO_RESOLVE_ON_READ => true
  | .AUTO_RESOLVE_ON_READ_WRITE => true
  | _ => false

/-- Modelled from the spec: dual-property `write(value)` — set the
desired node; if the policy includes on-write, trigger an incremental
resolve synchronously, before `write` returns. -/
def dual_prop_write (co : String → V → V) (π : List (Worker V))
    (pol : auto_resolve_policy) (desiredName : String) (v : V) (st : EState V) :
    EState V :=
  let st' := setNode co desiredName v st
  if resolvesOnWrite pol then incResolve co π st' else st'

/-- Modelled from the spec: dual-property `read()` — if the policy
includes on-read, trigger an incremental resolve first, then return the
coerced node's value (paired with the possibly-updated state). -/
def dual_prop_read (co : String → V → V) (π : List (Worker V))
    (pol : auto_resolve_policy) (coercedName : String) (st : EState V) :
    V × EState V :=
  let st' := if resolvesOnRead pol then incResolve co π st else st
  (st'.val coercedName, st')

/-- Trivial coercer: nodes without a coercion function store the value
as given. -/
def idCo : String → ℚ → ℚ := fun _ v => v

/-- Modelled from the spec: `meta_range_t::clip` for a single
contiguous range (the source of `ranges.cpp` is not provided) — clamps
the value into `[lo, hi]`. -/
def meta_range_clip (lo hi v : ℚ) : ℚ := max lo (min hi v)

/-- From `db_twinrx.cpp` lines 58–70: the `bandwidth/value` coercer
clips the written bandwidth to the degenerate range
`freq_range_t(BW, BW)` with `BW = 80e6`. -/
def bandwidth_coercer (v : ℚ) : ℚ := meta_range_clip 80000000 80000000 v

/-- Node-indexed coercion map for the bandwidth property. -/
def bandwidth_co : String → ℚ → ℚ :=
  fun n v => if n = "bandwidth/value" then bandwidth_coercer v else v

/-- From `db_twinrx.cpp` lines 82–84: `freq/range` is
`freq_range_t(10e6, 6.0e9)`; clipping a frequency to that range. -/
def clip_freq (v : ℚ) : ℚ := meta_range_clip 10000000 6000000000 v

/-- Modelled from the spec (§8 example scenario): worker `freq_planner`
consumes the desired frequency and produces the coerced frequency
(clamped to the 10e6–6e9 range) and an LO setting computed from the
clamped frequency via `loFn`. -/
def freq_planner (loFn : ℚ → ℚ) : Worker ℚ :=
  { name := "freq_planner"
    inputs := ["freq/desired"]
    outputs := ["freq/coerced", "lo_setting"]
    f := fun l =>
      match l with
      | [d] => [clip_freq d, loFn (clip_freq d)]
      | _ => [] }

/-- Steady state of the frequency subgraph with the initial desired
value 1e9 (from `add_dual_prop_node<double>(..., 1.0e9,
AUTO_RESOLVE_ON_READ_WRITE)` in the source). -/
def freq_state_init (loFn : ℚ → ℚ) : EState ℚ :=
  { val := fun x =>
      if x = "freq/desired" then 1000000000
      else if x = "freq/coerced" then 1000000000
      else if x = "lo_setting" then loFn 1000000000
      else 0
    dirty := fun _ => false }

/-- From `twinrx_ctrl.hpp` usage in the source: the two TwinRX channels. -/
inductive channel_t where
  | CH1
  | CH2
  deriving DecidableEq

/-- Modelled from the spec: `uhd::sensor_value_t` (its source is not
provided) — a boolean sensor stores `value` "true"/"false" and displays
the `utrue`/`ufalse` string as its unit. -/
structure sensor_value_t where
  name : String
  value : String
  unit : String
  deriving DecidableEq

/-- Modelled from the spec: the `sensor_value_t(name, b, utrue,
ufalse)` boolean constructor. -/
def sensor_value_bool (n : String) (b : Bool) (ut uf : String) : sensor_value_t :=
  { name := n
    value := if b then "true" else "false"
    unit := if b then ut else uf }

/-- From `db_twinrx.cpp` lines 260–268: `twinrx_rcvr_fe::get_lo_locked`
— select channel CH1 when the front-end name is "0", CH2 otherwise;
the sensor is locked exactly when both LO1 and LO2 report locked. -/
def get_lo_locked (ch_name : String)
    (read_lo1_locked read_lo2_locked : channel_t → Bool) : sensor_value_t :=
  let ch := if ch_name = "0" then channel_t.CH1 else channel_t.CH2
  let locked := read_lo1_locked ch && read_lo2_locked ch
  sensor_value_bool "LO" locked "locked" "unlocked"

/-- From `db_twinrx.cpp` lines 210–213: the `sensors/lo_locked`
property is created with a publisher that calls `get_lo_locked()`
afresh on every read. -/
def lo_locked_pub (ch_name : String)
    (read_lo1_locked read_lo2_locked : channel_t → Bool) :
    String → Option (Unit → sensor_value_t) :=
  fun n =>
    if n = "sensors/lo_locked" then
      some (fun _ => get_lo_locked ch_name read_lo1_locked read_lo2_locked)
    else none

/-- Shared state of a `twinrx_rcvr` container: the expert and control
objects (modelled by identity tokens, since sharing a `shared_ptr`
means holding the same object) and the registered front-end names. -/
structure twinrx_rcvr_t where
  expert : Nat
  ctrl : Nat
  fe_names : List String
  deriving DecidableEq

/-- The `rx_container` constructor argument: either an actual
`twinrx_rcvr` (successful `dynamic_pointer_cast`) or some other dboard
container (failed cast). -/
inductive rx_container_t where
  | twinrx (c : twinrx_rcvr_t)
  | other
  deriving DecidableEq

/-- The fields of `dboard_ctor_args_t` used by `make_twinrx_fe`. -/
structure dboard_ctor_args_t where
  sd_name : String
  rx_container : rx_container_t
  deriving DecidableEq

/-- A constructed `twinrx_rcvr_fe` front-end: it holds the container's
expert and control objects and its own channel name. -/
structure twinrx_rcvr_fe_t where
  expert : Nat
  ctrl : Nat
  ch_name : String
  deriving DecidableEq

/-- `uhd::assertion_error` as thrown by `make_twinrx_fe`. -/
inductive uhd_error where
  | assertion_error (msg : String)
  deriving DecidableEq

/-- From `db_twinrx.cpp` lines 369–381: `twinrx_rcvr::make_twinrx_fe`
— if the `rx_container` casts to `twinrx_rcvr`, build a front-end
sharing the container's expert and control objects and append the
sub-device name to the container's front-end list; otherwise throw
`uhd::assertion_error`. -/
def make_twinrx_fe (args : dboard_ctor_args_t) :
    Except uhd_error (twinrx_rcvr_fe_t × twinrx_rcvr_t) :=
  match args.rx_container with
  | .twinrx c =>
      .ok ({ expert := c.expert, ctrl := c.ctrl, ch_name := args.sd_name },
           { c with fe_names := c.fe_names ++ [args.sd_name] })
  | .other => .error (.assertion_error "error creating twinrx frontend")

/-- Concrete worker for witnesses: reads `i1`, writes `a`. -/
def wIndepA : Worker ℚ :=
  { name := "A", inputs := ["i1"], outputs := ["a"], f := fun l => l }

/-- Concrete worker for witnesses: reads `i2`, writes `b`. -/
def wIndepB : Worker ℚ :=
  { name := "B", inputs := ["i2"], outputs := ["b"], f := fun l => l }

/-- Concrete cyclic worker (claim C3's example): outputs `X`, inputs `Y`. -/
def wCycA : Worker ℚ :=
  { name := "A", inputs := ["Y"], outputs := ["X"], f := fun l => l }

/-- Concrete cyclic worker (claim C3's example): outputs `Y`, inputs `X`. -/
def wCycB : Worker ℚ :=
  { name := "B", inputs := ["X"], outputs := ["Y"], f := fun l => l }

/-- Concrete worker for the registration witness: writes `X`. -/
def wDupX1 : Worker ℚ :=
  { name := "W1", inputs := ["in1"], outputs := ["X"], f := fun l => l }

/-- Second concrete worker declaring the same output `X`. -/
def wDupX2 : Worker ℚ :=
  { name := "W2", inputs := ["in2"], outputs := ["X"], f := fun l => l }

/-- State right after the external write `freq/desired := 7e9` and
before the on-write resolve. -/
def freq_stW (loFn : ℚ → ℚ) : EState ℚ :=
  setNode idCo "freq/desired" 7000000000 (freq_state_init loFn)

/-- State after the synchronous on-write resolve of the frequency
subgraph: the planner wrote the clamped frequency and the LO setting. -/
def freq_st1 (loFn : ℚ → ℚ) : EState ℚ :=
  writeList idCo
    [("freq/coerced", 6000000000), ("lo_setting", loFn 6000000000)]
    (freq_stW loFn)

/-- All-zero, all-clean state over rational values. -/
def zeroState : EState ℚ :=
  { val := fun _ => 0, dirty := fun _ => false }

/-- A settled bandwidth state: the stored `bandwidth/value` is 80e6. -/
def bwState0 : EState ℚ :=
  { val := fun _ => 80000000, dirty := fun _ => false }

/-- A sensor-typed state for the publisher witness. -/
def sensorState0 : EState sensor_value_t :=
  { val := fun _ => sensor_value_bool "LO" false "locked" "unlocked"
    dirty := fun _ => false }

/-- Concrete container arguments with a real `twinrx_rcvr`. -/
def argsTwinrx : dboard_ctor_args_t :=
  { sd_name := "0"
    rx_container := .twinrx { expert := 7, ctrl := 9, fe_names := [] } }

/-- Concrete container arguments with a non-TwinRX container. -/
def argsOther : dboard_ctor_args_t :=
  { sd_name := "0", rx_container := .other }

/-! ## Theorems -/

/-- Two engine states are equal when values and dirty flags agree on
every node. -/
theorem EState.ext_pt {s t : EState V} (hv : ∀ x, s.val x = t.val x)
    (hd : ∀ x, s.dirty x = t.dirty x) : s = t := by
  cases s; cases t
  simp only [EState.mk.injEq]
  exact ⟨funext hv, funext hd⟩

theorem setNode_val (co : String → V → V) (n : String) (v : V) (st : EState V)
    (x : String) :
    (setNode co n v st).val x = if x = n then co n v else st.val x := by
  unfold setNode
  by_cases h : co n v = st.val n
  · simp only [if_pos h]
    by_cases hx : x = n
    · subst hx; simp [h]
    · simp [hx]
  · simp [if_neg h]

theorem setNode_dirty (co : String → V → V) (n : String) (v : V) (st : EState V)
    (x : String) :
    (setNode co n v st).dirty x =
      if x = n then (if co n v = st.val n then st.dirty n else true)
      else st.dirty x := by
  unfold setNode
  by_cases h : co n v = st.val n
  · simp only [if_pos h]
    by_cases hx : x = n
    · subst hx; simp
    · simp [hx]
  · simp [if_neg h]

theorem writeList_nil (co : String → V → V) (st : EState V) :
    writeList co [] st = st := rfl

theorem writeList_cons (co : String → V → V) (p : String × V)
    (ps : List (String × V)) (st : EState V) :
    writeList co (p :: ps) st = writeList co ps (setNode co p.1 p.2 st) := rfl

theorem writeList_val_notmem (co : String → V → V) (ps : List (String × V))
    (st : EState V) (x : String) (hx : x ∉ ps.map Prod.fst) :
    (writeList co ps st).val x = st.val x := by
  induction ps generalizing st with
  | nil => rfl
  | cons p ps ih =>
      simp only [List.map_cons, List.mem_cons, not_or] at hx
      rw [writeList_cons, ih _ hx.2, setNode_val, if_neg hx.1]

theorem writeList_dirty_notmem (co : String → V → V) (ps : List (String × V))
    (st : EState V) (x : String) (hx : x ∉ ps.map Prod.fst) :
    (writeList co ps st).dirty x = st.dirty x := by
  induction ps generalizing st with
  | nil => rfl
  | cons p ps ih =>
      simp only [List.map_cons, List.mem_cons, not_or] at hx
      rw [writeList_cons, ih _ hx.2, setNode_dirty, if_neg hx.1]

theorem map_fst_zip_sublist {α β : Type} (l₁ : List α) (l₂ : List β) :
    ((l₁.zip l₂).map Prod.fst).Sublist l₁ := by
  induction l₁ generalizing l₂ with
  | nil => simp
  | cons a l₁ ih =>
      cases l₂ with
      | nil => simp
      | cons b l₂ => simpa using (ih l₂).cons₂ a

theorem runWorker_val_notmem (co : String → V → V) (w : Worker V)
    (st : EState V) (x : String) (hx : x ∉ w.outputs) :
    (runWorker co w st).val x = st.val x := by
  refine writeList_val_notmem _ _ _ _ ?_
  intro hmem
  exact hx ((map_fst_zip_sublist w.outputs _).subset hmem)

theorem runWorker_dirty_notmem (co : String → V → V) (w : Worker V)
    (st : EState V) (x : String) (hx : x ∉ w.outputs) :
    (runWorker co w st).dirty x = st.dirty x := by
  refine writeList_dirty_notmem _ _ _ _ ?_
  intro hmem
  exact hx ((map_fst_zip_sublist w.outputs _).subset hmem)

theorem runList_nil (co : String → V → V) (st : EState V) :
    runList co [] st = st := rfl

theorem runList_cons (co : String → V → V) (w : Worker V) (l : List (Worker V))
    (st : EState V) :
    runList co (w :: l) st = runList co l (runWorker co w st) := rfl

theorem runList_append (co : String → V → V) (l₁ l₂ : List (Worker V))
    (st : EState V) :
    runList co (l₁ ++ l₂) st = runList co l₂ (runList co l₁ st) :=
  List.foldl_append _ _ _ _

theorem setNode_comm (co : String → V → V) {n m : String} (v u : V)
    (st : EState V) (hnm : n ≠ m) :
    setNode co n v (setNode co m u st) = setNode co m u (setNode co n v st) := by
  refine EState.ext_pt (fun x => ?_) (fun x => ?_)
  · simp only [setNode_val]
    by_cases hxn : x = n
    · subst hxn; simp [hnm]
    · by_cases hxm : x = m
      · subst hxm; simp [hxn, hnm, Ne.symm hnm]
      · simp [hxn, hxm]
  · simp only [setNode_dirty, setNode_val]
    by_cases hxn : x = n
    · subst hxn; simp [hnm, Ne.symm hnm]
    · by_cases hxm : x = m
      · subst hxm; simp [hxn, hnm, Ne.symm hnm]
      · simp [hxn, hxm]

theorem setNode_writeList_comm (co : String → V → V) {n : String} (v : V)
    (ps : List (String × V)) (st : EState V) (hn : n ∉ ps.map Prod.fst) :
    setNode co n v (writeList co ps st) = writeList co ps (setNode co n v st) := by
  induction ps generalizing st with
  | nil => rfl
  | cons p ps ih =>
      simp only [List.map_cons, List.mem_cons, not_or] at hn
      rw [writeList_cons, writeList_cons, ih _ hn.2,
        setNode_comm co v p.2 st hn.1]

theorem writeList_comm (co : String → V → V) (ps qs : List (String × V))
    (st : EState V) (h : ∀ a ∈ ps.map Prod.fst, a ∉ qs.map Prod.fst) :
    writeList co ps (writeList co qs st) = writeList co qs (writeList co ps st) := by
  induction ps generalizing st with
  | nil => rfl
  | cons p ps ih =>
      have hp : p.1 ∉ qs.map Prod.fst := h p.1 (by simp)
      rw [writeList_cons, writeList_cons,
        setNode_writeList_comm co p.2 qs st hp,
        ih _ (fun a ha => h a (by simp [ha]))]

theorem runWorker_comm (co : String → V → V) (w u : Worker V) (st : EState V)
    (hwu : ∀ x ∈ w.outputs, x ∉ u.inputs)
    (huw : ∀ x ∈ u.outputs, x ∉ w.inputs)
    (hoo : ∀ x ∈ w.outputs, x ∉ u.outputs) :
    runWorker co w (runWorker co u st) = runWorker co u (runWorker co w st) := by
  have hwin : w.inputs.map (runWorker co u st).val = w.inputs.map st.val := by
    refine List.map_congr_left (fun i hi => ?_)
    exact runWorker_val_notmem co u st i (fun hiu => huw i hiu hi)
  have huin : u.inputs.map (runWorker co w st).val = u.inputs.map st.val := by
    refine List.map_congr_left (fun i hi => ?_)
    exact runWorker_val_notmem co w st i (fun hiw => hwu i hiw hi)
  have hdisj : ∀ a ∈ (w.outputs.zip (w.f (w.inputs.map st.val))).map Prod.fst,
      a ∉ (u.outputs.zip (u.f (u.inputs.map st.val))).map Prod.fst := by
    intro a ha hb
    exact hoo a ((map_fst_zip_sublist w.outputs _).subset ha)
      ((map_fst_zip_sublist u.outputs _).subset hb)
  show writeList co (w.outputs.zip (w.f (w.inputs.map (runWorker co u st).val)))
        (runWorker co u st)
      = writeList co (u.outputs.zip (u.f (u.inputs.map (runWorker co w st).val)))
        (runWorker co w st)
  rw [hwin, huin]
  exact writeList_comm co _ _ st hdisj

theorem runList_bubble (co : String → V → V) (w : Worker V)
    (l₁ l₂ : List (Worker V)) (st : EState V)
    (hcomm : ∀ u ∈ l₁, ∀ s : EState V,
      runWorker co u (runWorker co w s) = runWorker co w (runWorker co u s)) :
    runList co (l₁ ++ w :: l₂) st = runList co (w :: (l₁ ++ l₂)) st := by
  induction l₁ generalizing st with
  | nil => rfl
  | cons u l₁ ih =>
      have hu := hcomm u (by simp)
      rw [List.cons_append, runList_cons,
        ih (runWorker co u st) (fun a ha s => hcomm a (by simp [ha]) s)]
      show runList co (l₁ ++ l₂) (runWorker co w (runWorker co u st))
          = runList co (l₁ ++ l₂) (runWorker co u (runWorker co w st))
      rw [hu st]

/-- Order-independence of a full resolve: two runs over the same worker
multiset, both in valid topological order, with the single-writer
invariant, produce identical final states. -/
theorem runList_perm_eq (co : String → V → V) :
    ∀ (π₂ π₁ : List (Worker V)) (st : EState V), π₁.Perm π₂ →
      validOrder π₁ → validOrder π₂ → singleWriter π₁ →
      runList co π₁ st = runList co π₂ st := by
  intro π₂
  induction π₂ with
  | nil =>
      intro π₁ st hperm _ _ _
      rw [hperm.eq_nil]
  | cons w rest ih =>
      intro π₁ st hperm hv₁ hv₂ hsw
      have hw : w ∈ π₁ := hperm.mem_iff.2 (List.mem_cons_self w rest)
      obtain ⟨l₁, l₂, rfl⟩ := List.append_of_mem hw
      have hperm' : (l₁ ++ l₂).Perm rest := by
        have h1 : (w :: (l₁ ++ l₂)).Perm (l₁ ++ w :: l₂) := List.perm_middle.symm
        exact (h1.trans hperm).cons_inv
      have hvrest : validOrder rest := (List.pairwise_cons.1 hv₂).2
      have hhead : ∀ u ∈ rest, ∀ x ∈ u.outputs, x ∉ w.inputs :=
        (List.pairwise_cons.1 hv₂).1
      have hsub : (l₁ ++ l₂).Sublist (l₁ ++ w :: l₂) :=
        ((List.sublist_cons_self w l₂).append_left l₁)
      have hv₁' : validOrder (l₁ ++ l₂) := hv₁.sublist hsub
      have hsw' : singleWriter (l₁ ++ l₂) := hsw.sublist hsub
      have hcomm : ∀ u ∈ l₁, ∀ s : EState V,
          runWorker co u (runWorker co w s) = runWorker co w (runWorker co u s) := by
        intro u hu s
        have hurest : u ∈ rest := hperm'.subset (by simp [hu])
        have h₁ : ∀ x ∈ w.outputs, x ∉ u.inputs := by
          have := (List.pairwise_append.1 hv₁).2.2
          exact this u hu w (by simp)
        have h₂ : ∀ x ∈ u.outputs, x ∉ w.inputs := hhead u hurest
        have h₃ : ∀ x ∈ w.outputs, x ∉ u.outputs := by
          have huw := (List.pairwise_append.1 hsw).2.2 u hu w (by simp)
          intro x hxw hxu
          exact huw x hxu hxw
        exact (runWorker_comm co w u s h₁ h₂ h₃).symm
      rw [runList_bubble co w l₁ l₂ st hcomm, runList_cons, runList_cons]
      exact ih (l₁ ++ l₂) (runWorker co w st) hperm' hv₁' hvrest hsw'

theorem writeList_val_of_mem (co : String → V → V) (ps : List (String × V))
    (st : EState V) (hnd : (ps.map Prod.fst).Nodup) {n : String} {v : V}
    (hmem : (n, v) ∈ ps) : (writeList co ps st).val n = co n v := by
  induction ps generalizing st with
  | nil => cases hmem
  | cons p ps ih =>
      simp only [List.map_cons, List.nodup_cons] at hnd
      rcases List.mem_cons.1 hmem with h | h
      · subst h
        rw [writeList_cons, writeList_val_notmem co ps _ n hnd.1, setNode_val,
          if_pos rfl]
      · rw [writeList_cons]
        exact ih _ hnd.2 h

theorem writeList_fixed (co : String → V → V) (ps : List (String × V))
    (st : EState V) (h : ∀ p ∈ ps, st.val p.1 = co p.1 p.2) :
    writeList co ps st = st := by
  induction ps with
  | nil => rfl
  | cons p ps ih =>
      have hp : setNode co p.1 p.2 st = st := by
        unfold setNode
        rw [if_pos (h p (by simp)).symm]
      rw [writeList_cons, hp]
      exact ih (fun q hq => h q (by simp [hq]))

theorem runList_val_notmem (co : String → V → V) (l : List (Worker V))
    (st : EState V) (x : String) (hx : ∀ w ∈ l, x ∉ w.outputs) :
    (runList co l st).val x = st.val x := by
  induction l generalizing st with
  | nil => rfl
  | cons w l ih =>
      rw [runList_cons, ih _ (fun u hu => hx u (by simp [hu])),
        runWorker_val_notmem co w st x (hx w (by simp))]

/-- After a full resolve in a valid topological order, re-running any of
its workers leaves the state unchanged (the graph has settled). -/
theorem runList_settled (co : String → V → V) :
    ∀ (π : List (Worker V)) (st : EState V), validOrder π → singleWriter π →
      noAlias π → nodupOutputs π →
      ∀ w ∈ π, runWorker co w (runList co π st) = runList co π st := by
  intro π
  induction π with
  | nil => intro st _ _ _ _ w hw; cases hw
  | cons u rest ih =>
      intro st hv hsw hna hnd w hw
      rcases List.mem_cons.1 hw with h | h
      · subst h
        rw [runList_cons]
        set st₁ := runWorker co w st with hst₁
        set F := runList co rest st₁ with hF
        have hin : ∀ i ∈ w.inputs, F.val i = st.val i := by
          intro i hi
          have h₁ : F.val i = st₁.val i :=
            runList_val_notmem co rest st₁ i
              (fun r hr hri => (List.pairwise_cons.1 hv).1 r hr i hri hi)
          have h₂ : st₁.val i = st.val i :=
            runWorker_val_notmem co w st i (fun hio => hna w (by simp) i hio hi)
          rw [h₁, h₂]
        have hmap : w.inputs.map F.val = w.inputs.map st.val :=
          List.map_congr_left (fun i hi => hin i hi)
        have hout : ∀ n ∈ w.outputs, F.val n = st₁.val n := by
          intro n hn
          exact runList_val_notmem co rest st₁ n
            (fun r hr hrn => (List.pairwise_cons.1 hsw).1 r hr n hn hrn)
        have hndw : ((w.outputs.zip (w.f (w.inputs.map st.val))).map Prod.fst).Nodup :=
          (hnd w (by simp)).sublist (map_fst_zip_sublist _ _)
        show runWorker co w F = F
        unfold runWorker
        rw [hmap]
        refine writeList_fixed co _ F (fun p hp => ?_)
        have hpn : p.1 ∈ w.outputs := by
          have := List.of_mem_zip hp
          exact this.1
        rw [hout p.1 hpn, hst₁]
        show (runWorker co w st).val p.1 = co p.1 p.2
        unfold runWorker
        exact writeList_val_of_mem co _ st hndw (by simpa using hp)
      · rw [runList_cons]
        refine ih (runWorker co u st) (List.pairwise_cons.1 hv).2
          (List.pairwise_cons.1 hsw).2 (fun r hr => hna r (by simp [hr]))
          (fun r hr => hnd r (by simp [hr])) w h

/-- Running any workers that individually fix a state leaves it fixed. -/
theorem runList_fixed (co : String → V → V) (l : List (Worker V))
    (st : EState V) (h : ∀ w ∈ l, runWorker co w st = st) :
    runList co l st = st := by
  induction l with
  | nil => rfl
  | cons w l ih =>
      rw [runList_cons, h w (by simp)]
      exact ih (fun u hu => h u (by simp [hu]))

/-- Incremental resolve over workers that individually fix a state
leaves it fixed. -/
theorem incResolve_fixed (co : String → V → V) (l : List (Worker V))
    (st : EState V) (h : ∀ w ∈ l, runWorker co w st = st) :
    incResolve co l st = st := by
  induction l with
  | nil => rfl
  | cons w l ih =>
      show incResolve co l (if w.inputs.any st.dirty then runWorker co w st else st)
          = st
      by_cases hd : w.inputs.any st.dirty
      · rw [if_pos hd, h w (by simp)]
        exact ih (fun u hu => h u (by simp [hu]))
      · rw [if_neg hd]
        exact ih (fun u hu => h u (by simp [hu]))

theorem incResolve_nil (co : String → V → V) (st : EState V) :
    incResolve co [] st = st := rfl

theorem incResolve_cons (co : String → V → V) (w : Worker V)
    (l : List (Worker V)) (st : EState V) :
    incResolve co (w :: l) st
      = incResolve co l
          (if w.inputs.any st.dirty then runWorker co w st else st) := rfl

theorem dual_prop_write_rw (co : String → V → V) (π : List (Worker V))
    (n : String) (v : V) (st : EState V) :
    dual_prop_write co π .AUTO_RESOLVE_ON_READ_WRITE n v st
      = incResolve co π (setNode co n v st) := rfl

theorem dual_prop_read_rw (co : String → V → V) (π : List (Worker V))
    (n : String) (st : EState V) :
    dual_prop_read co π .AUTO_RESOLVE_ON_READ_WRITE n st
      = ((incResolve co π st).val n, incResolve co π st) := rfl

/-- Incremental resolve runs no worker when no node is dirty. -/
theorem incResolve_clean (co : String → V → V) (l : List (Worker V))
    (st : EState V) (h : ∀ x, st.dirty x = false) :
    incResolve co l st = st := by
  induction l with
  | nil => rfl
  | cons w l ih =>
      show incResolve co l (if w.inputs.any st.dirty then runWorker co w st else st)
          = st
      have hd : w.inputs.any st.dirty = false := by
        simp [List.any_eq_false]
        intro x _
        exact h x
      rw [hd]
      exact ih

theorem isReady_false_of_depends (all : List (Worker V)) (w u : Worker V)
    (hu : u ∈ all) (hdep : dependsOn w u) : isReady all w = false := by
  rw [Bool.eq_false_iff]
  intro hready
  obtain ⟨x, hxu, hxw⟩ := hdep
  simp only [isReady, List.all_eq_true, Bool.not_eq_true'] at hready
  have := hready u hu x hxu
  simp [List.contains, hxw] at this

theorem pickReady_spec (all : List (Worker V)) :
    ∀ (l : List (Worker V)) (u : Worker V) (rest' : List (Worker V)),
      pickReady all l = some (u, rest') →
      isReady all u = true ∧ l.Perm (u :: rest') := by
  intro l
  induction l with
  | nil => intro u rest' h; cases h
  | cons w rest ih =>
      intro u rest' h
      by_cases hr : isReady all w
      · rw [pickReady, if_pos hr] at h
        cases h
        exact ⟨hr, List.Perm.refl _⟩
      · rw [pickReady, if_neg hr] at h
        cases hp : pickReady all rest with
        | none => rw [hp] at h; cases h
        | some p =>
            rw [hp] at h
            cases h
            obtain ⟨h1, h2⟩ := ih p.1 p.2 hp
            exact ⟨h1, ((h2.cons w).trans (List.Perm.swap p.1 w p.2))⟩

theorem kahnAux_cycle (c : List (Worker V)) (hc : c ≠ [])
    (hdep : ∀ w ∈ c, ∃ u ∈ c, dependsOn w u) :
    ∀ (n : Nat) (rem acc : List (Worker V)), (∀ w ∈ c, w ∈ rem) →
      kahnAux n rem acc = .error .cycleDetected := by
  have hne : ∀ rem : List (Worker V), (∀ w ∈ c, w ∈ rem) → rem ≠ [] := by
    intro rem hsub hnil
    cases c with
    | nil => exact hc rfl
    | cons ch ct =>
        have := hsub ch (by simp)
        rw [hnil] at this
        cases this
  intro n
  induction n with
  | zero =>
      intro rem acc hsub
      cases rem with
      | nil => exact absurd rfl (hne [] hsub)
      | cons w rest => rfl
  | succ n ih =>
      intro rem acc hsub
      cases rem with
      | nil => exact absurd rfl (hne [] hsub)
      | cons w rest =>
          have hnotready : ∀ m ∈ c, isReady (w :: rest) m = false := by
            intro m hm
            obtain ⟨u, hu, hdu⟩ := hdep m hm
            exact isReady_false_of_depends _ m u (hsub u hu) hdu
          cases hpick : pickReady (w :: rest) (w :: rest) with
          | none => simp [kahnAux, hpick]
          | some p =>
              obtain ⟨hready, hperm⟩ := pickReady_spec _ _ p.1 p.2 hpick
              have hsub' : ∀ m ∈ c, m ∈ p.2 := by
                intro m hm
                have hm' : m ∈ p.1 :: p.2 := hperm.subset (hsub m hm)
                rcases List.mem_cons.1 hm' with h | h
                · exfalso
                  have hfalse := hnotready m hm
                  rw [h] at hfalse
                  rw [hfalse] at hready
                  exact Bool.false_ne_true hready
                · exact h
              simp only [kahnAux, hpick]
              exact ih p.2 (p.1 :: acc) hsub'

theorem register_worker_ok (ws ws' : List (Worker V)) (w : Worker V)
    (h : register_worker ws w = .ok ws') :
    ws' = ws ++ [w] ∧ ∀ u ∈ ws, ∀ x ∈ u.outputs, x ∉ w.outputs := by
  by_cases hc : w.outputs.any (fun x => ws.any (fun u => u.outputs.contains x))
  · rw [register_worker, if_pos hc] at h
    cases h
  · rw [register_worker, if_neg hc] at h
    cases h
    refine ⟨rfl, fun u hu x hxu hxw => ?_⟩
    apply hc
    simp only [List.any_eq_true]
    exact ⟨x, hxw, u, hu, by simp [List.contains, hxu]⟩

theorem register_all_aux (l : List (Worker V)) :
    ∀ (acc ws' : List (Worker V)), singleWriter acc →
      l.foldlM register_worker acc = .ok ws' → singleWriter ws' := by
  induction l with
  | nil =>
      intro acc ws' hsw h
      cases h
      exact hsw
  | cons w t ih =>
      intro acc ws' hsw h
      rw [List.foldlM_cons] at h
      cases hr : register_worker acc w with
      | error e => rw [hr] at h; cases h
      | ok acc' =>
          rw [hr] at h
          obtain ⟨rfl, hcross⟩ := register_worker_ok acc acc' w hr
          refine ih _ ws' ?_ h
          rw [singleWriter, List.pairwise_append]
          exact ⟨hsw, List.pairwise_singleton _ _,
            fun a ha b hb => by
              simp only [List.mem_singleton] at hb
              subst hb
              exact hcross a ha⟩

theorem clip_freq_7e9 : clip_freq 7000000000 = 6000000000 := by
  unfold clip_freq meta_range_clip
  norm_num [min_def, max_def]

theorem freq_stW_des (loFn : ℚ → ℚ) :
    (freq_stW loFn).val "freq/desired" = 7000000000 := by
  unfold freq_stW
  rw [setNode_val, if_pos rfl]
  rfl

theorem freq_stW_dirty (loFn : ℚ → ℚ) :
    (freq_stW loFn).dirty "freq/desired" = true := by
  have hne : idCo "freq/desired" (7000000000 : ℚ)
      ≠ (freq_state_init loFn).val "freq/desired" := by
    norm_num [idCo, freq_state_init]
  unfold freq_stW
  rw [setNode_dirty, if_pos rfl, if_neg hne]

theorem freq_inc_eq (loFn : ℚ → ℚ) :
    incResolve idCo [freq_planner loFn] (freq_stW loFn) = freq_st1 loFn := by
  rw [incResolve_cons]
  have hcond : (freq_planner loFn).inputs.any (freq_stW loFn).dirty = true := by
    show ["freq/desired"].any (freq_stW loFn).dirty = true
    simp [freq_stW_dirty loFn]
  rw [hcond, if_pos rfl, incResolve_nil]
  unfold runWorker
  have hmap : (freq_planner loFn).inputs.map (freq_stW loFn).val
      = [(7000000000 : ℚ)] := by
    show [(freq_stW loFn).val "freq/desired"] = [(7000000000 : ℚ)]
    rw [freq_stW_des loFn]
  rw [hmap]
  show writeList idCo
      [("freq/coerced", clip_freq 7000000000),
       ("lo_setting", loFn (clip_freq 7000000000))] (freq_stW loFn)
    = freq_st1 loFn
  rw [clip_freq_7e9]
  rfl

theorem freq_st1_coerced (loFn : ℚ → ℚ) :
    (freq_st1 loFn).val "freq/coerced" = 6000000000 := by
  unfold freq_st1
  rw [writeList_cons, writeList_cons, writeList_nil, setNode_val,
    if_neg (by decide : ¬("freq/coerced" = "lo_setting")), setNode_val,
    if_pos rfl]
  rfl

theorem freq_st1_lo (loFn : ℚ → ℚ) :
    (freq_st1 loFn).val "lo_setting" = loFn 6000000000 := by
  unfold freq_st1
  rw [writeList_cons, writeList_cons, writeList_nil, setNode_val, if_pos rfl]
  rfl

theorem freq_st1_dirty_des (loFn : ℚ → ℚ) :
    (freq_st1 loFn).dirty "freq/desired" = true := by
  unfold freq_st1
  rw [writeList_dirty_notmem _ _ _ _ ?_]
  · exact freq_stW_dirty loFn
  · show "freq/desired" ∉ ["freq/coerced", "lo_setting"]
    decide

theorem freq_st1_des (loFn : ℚ → ℚ) :
    (freq_st1 loFn).val "freq/desired" = 7000000000 := by
  unfold freq_st1
  rw [writeList_val_notmem _ _ _ _ ?_]
  · exact freq_stW_des loFn
  · show "freq/desired" ∉ ["freq/coerced", "lo_setting"]
    decide

theorem freq_read (loFn : ℚ → ℚ) :
    (dual_prop_read idCo [freq_planner loFn] .AUTO_RESOLVE_ON_READ_WRITE
      "freq/coerced" (freq_st1 loFn)).1 = 6000000000 := by
  rw [dual_prop_read_rw, incResolve_cons]
  have hcond : (freq_planner loFn).inputs.any (freq_st1 loFn).dirty = true := by
    show ["freq/desired"].any (freq_st1 loFn).dirty = true
    simp [freq_st1_dirty_des loFn]
  rw [hcond, if_pos rfl, incResolve_nil]
  show (runWorker idCo (freq_planner loFn) (freq_st1 loFn)).val "freq/coerced"
    = 6000000000
  unfold runWorker
  have hmap : (freq_planner loFn).inputs.map (freq_st1 loFn).val
      = [(7000000000 : ℚ)] := by
    show [(freq_st1 loFn).val "freq/desired"] = [(7000000000 : ℚ)]
    rw [freq_st1_des loFn]
  rw [hmap]
  show (writeList idCo
      [("freq/coerced", clip_freq 7000000000),
       ("lo_setting", loFn (clip_freq 7000000000))] (freq_st1 loFn)).val
      "freq/coerced" = 6000000000
  rw [clip_freq_7e9]
  rw [writeList_cons, writeList_cons, writeList_nil, setNode_val,
    if_neg (by decide : ¬("freq/coerced" = "lo_setting")), setNode_val,
    if_pos rfl]
  rfl

/-- C1: For the front-end `freq/value` dual desired/coerced pair
(range 10e6–6e9, initial 1e9), writing the desired frequency 7e9
triggers a synchronous resolve before the write returns; afterwards the
coerced frequency node reads as a value clamped to at most 6e9 (namely
6e9), and the dependent LO-setting node holds the value computed from
the clamped frequency, not from the raw 7e9. -/
theorem claim1_freq_write_clamped (loFn : ℚ → ℚ) :
    (dual_prop_write idCo [freq_planner loFn] .AUTO_RESOLVE_ON_READ_WRITE
        "freq/desired" 7000000000 (freq_state_init loFn)).val "freq/coerced"
      = 6000000000
  ∧ (dual_prop_write idCo [freq_planner loFn] .AUTO_RESOLVE_ON_READ_WRITE
        "freq/desired" 7000000000 (freq_state_init loFn)).val "freq/coerced"
      ≤ 6000000000
  ∧ (dual_prop_read idCo [freq_planner loFn] .AUTO_RESOLVE_ON_READ_WRITE
        "freq/coerced"
        (dual_prop_write idCo [freq_planner loFn] .AUTO_RESOLVE_ON_READ_WRITE
          "freq/desired" 7000000000 (freq_state_init loFn))).1
      = 6000000000
  ∧ (dual_prop_write idCo [freq_planner loFn] .AUTO_RESOLVE_ON_READ_WRITE
        "freq/desired" 7000000000 (freq_state_init loFn)).val "lo_setting"
      = loFn 6000000000 := by
  have h1 : dual_prop_write idCo [freq_planner loFn] .AUTO_RESOLVE_ON_READ_WRITE
      "freq/desired" 7000000000 (freq_state_init loFn) = freq_st1 loFn := by
    rw [dual_prop_write_rw]
    exact freq_inc_eq loFn
  refine ⟨?_, ?_, ?_, ?_⟩
  · rw [h1]; exact freq_st1_coerced loFn
  · rw [h1, freq_st1_coerced loFn]
  · rw [h1]; exact freq_read loFn
  · rw [h1]; exact freq_st1_lo loFn

/-- C2: For every acyclic, single-writer worker graph and every pair of
valid topological orders of its workers, a full resolve executing every
worker exactly once in the first order and one in the second order
yield identical final values on every node of the graph. -/
theorem claim2_full_resolve_order_independent (co : String → V → V)
    (π₁ π₂ : List (Worker V)) (st : EState V) (hperm : π₁.Perm π₂)
    (hv₁ : validOrder π₁) (hv₂ : validOrder π₂) (hsw : singleWriter π₁) :
    ∀ x, (runList co π₁ st).val x = (runList co π₂ st).val x := by
  intro x
  rw [runList_perm_eq co π₂ π₁ st hperm hv₁ hv₂ hsw]

/-- Witness for C2: a concrete two-worker graph resolved in both valid
orders agrees on node `a`. -/
theorem claim2_witness :
    (runList idCo [wIndepA, wIndepB] zeroState).val "a"
      = (runList idCo [wIndepB, wIndepA] zeroState).val "a" :=
  claim2_full_resolve_order_independent idCo [wIndepA, wIndepB]
    [wIndepB, wIndepA] zeroState (List.Perm.swap wIndepB wIndepA [])
    (by simp [validOrder, wIndepA, wIndepB])
    (by simp [validOrder, wIndepA, wIndepB])
    (by simp [singleWriter, wIndepA, wIndepB]) "a"

/-- C3: For every worker set whose derived input/output edges contain a
cycle, graph finalize terminates with CycleDetected (the algorithm is
fuel-bounded, hence total), and a full resolve of the cyclic graph
fails the same way without executing any worker or producing a state. -/
theorem claim3_cycle_finalize_fails (co : String → V → V)
    (ws : List (Worker V)) (st : EState V) (h : hasCycle ws) :
    graph_finalize ws = .error .cycleDetected
      ∧ resolve_all co ws st = .error .cycleDetected := by
  obtain ⟨c, hc, hsub, hdep⟩ := h
  have hfin : graph_finalize ws = .error .cycleDetected :=
    kahnAux_cycle c hc hdep ws.length ws [] hsub
  refine ⟨hfin, ?_⟩
  rw [resolve_all, hfin]

/-- Witness for C3: the two-worker cycle from the claim (worker A
outputs X and reads Y, worker B reads X and outputs Y). -/
theorem claim3_witness :
    graph_finalize [wCycA, wCycB] = .error .cycleDetected
      ∧ resolve_all idCo [wCycA, wCycB] zeroState = .error .cycleDetected :=
  claim3_cycle_finalize_fails idCo [wCycA, wCycB] zeroState
    ⟨[wCycA, wCycB], by simp, fun w hw => hw, by
      intro w hw
      rcases List.mem_cons.1 hw with h | h
      · subst h
        exact ⟨wCycB, by simp, "Y", by simp [wCycB], by simp [wCycA]⟩
      · simp only [List.mem_singleton] at h
        subst h
        exact ⟨wCycA, by simp, "X", by simp [wCycA], by simp [wCycB]⟩⟩

/-- C4: Registering a worker whose declared output set contains a node
already declared as an output of a previously registered worker fails
with SingleWriterViolation; consequently every successfully registered
worker set satisfies the single-writer invariant. -/
theorem claim4_single_writer_registration (ws : List (Worker V))
    (w : Worker V) (l ws' : List (Worker V)) :
    ((∃ u ∈ ws, ∃ x ∈ w.outputs, x ∈ u.outputs) →
       register_worker ws w = .error .singleWriterViolation)
  ∧ (register_all l = .ok ws' → singleWriter ws') := by
  constructor
  · rintro ⟨u, hu, x, hxw, hxu⟩
    have hb : (w.outputs.any fun y => ws.any fun r => r.outputs.contains y)
        = true := by
      simp only [List.any_eq_true]
      exact ⟨x, hxw, u, hu, by simp [List.contains, hxu]⟩
    rw [register_worker, if_pos hb]
  · intro h
    exact register_all_aux l [] ws' List.Pairwise.nil h

/-- Witness for C4: two workers both declaring output `X`. -/
theorem claim4_witness :
    register_worker [wDupX1] wDupX2 = .error .singleWriterViolation
      ∧ singleWriter [wDupX1] :=
  ⟨(claim4_single_writer_registration [wDupX1] wDupX2 [wDupX1] [wDupX1]).1
      ⟨wDupX1, by simp, "X", by simp [wDupX2], by simp [wDupX1]⟩,
   (claim4_single_writer_registration [wDupX1] wDupX2 [wDupX1] [wDupX1]).2
      (by rfl)⟩

/-- C5: After a full resolve the graph has settled: re-running any
worker, any sub-list of workers, or an incremental resolve over the
same pending set changes no node's value and marks no node newly dirty
(the state is unchanged exactly); in particular every worker invoked
twice in a row with unchanged inputs produces identical outputs. -/
theorem claim5_settled_idempotent (co : String → V → V)
    (π : List (Worker V)) (st : EState V) (hv : validOrder π)
    (hsw : singleWriter π) (hna : noAlias π) (hnd : nodupOutputs π) :
    (∀ w ∈ π, runWorker co w (runList co π st) = runList co π st)
  ∧ (∀ sub : List (Worker V), (∀ w ∈ sub, w ∈ π) →
       runList co sub (runList co π st) = runList co π st)
  ∧ incResolve co π (runList co π st) = runList co π st := by
  have hset := runList_settled co π st hv hsw hna hnd
  exact ⟨hset,
    fun sub hsub => runList_fixed co sub _ (fun w hw => hset w (hsub w hw)),
    incResolve_fixed co π _ (fun w hw => hset w hw)⟩

/-- Witness for C5 at a concrete one-worker graph. -/
theorem claim5_witness :
    runList idCo [wIndepA] (runList idCo [wIndepA] zeroState)
        = runList idCo [wIndepA] zeroState
      ∧ incResolve idCo [wIndepA] (runList idCo [wIndepA] zeroState)
        = runList idCo [wIndepA] zeroState :=
  ⟨(claim5_settled_idempotent idCo [wIndepA] zeroState
      (by simp [validOrder]) (by simp [singleWriter])
      (by simp [noAlias, wIndepA]) (by simp [nodupOutputs, wIndepA])).2.1
      [wIndepA] (fun w hw => hw),
   (claim5_settled_idempotent idCo [wIndepA] zeroState
      (by simp [validOrder]) (by simp [singleWriter])
      (by simp [noAlias, wIndepA]) (by simp [nodupOutputs, wIndepA])).2.2⟩

/-- C6: `set` marks the node dirty exactly when the effective
(post-coercion) stored value changed; a no-op set (effective value
equal to current) leaves the state completely unchanged, and from a
clean state it causes no downstream worker to re-run during an
incremental resolve. -/
theorem claim6_noop_set (co : String → V → V) (n : String) (v : V)
    (st : EState V) (π : List (Worker V)) :
    ((setNode co n v st).dirty n = true ↔
       (st.dirty n = true ∨ co n v ≠ st.val n))
  ∧ (co n v = st.val n → setNode co n v st = st)
  ∧ ((∀ x, st.dirty x = false) → co n v = st.val n →
       incResolve co π (setNode co n v st) = st) := by
  have hnoop : co n v = st.val n → setNode co n v st = st := by
    intro h
    unfold setNode
    rw [if_pos h]
  refine ⟨?_, hnoop, fun hclean heq => ?_⟩
  · rw [setNode_dirty, if_pos rfl]
    by_cases h : co n v = st.val n
    · simp [h]
    · simp [h]
  · rw [hnoop heq]
    exact incResolve_clean co π st hclean

/-- Witness for C6: setting a node to its current value is the
identity and triggers no worker. -/
theorem claim6_witness :
    setNode idCo "x" 0 zeroState = zeroState
      ∧ incResolve idCo [wIndepA] (setNode idCo "x" 0 zeroState) = zeroState :=
  ⟨(claim6_noop_set idCo "x" 0 zeroState [wIndepA]).2.1 rfl,
   (claim6_noop_set idCo "x" 0 zeroState [wIndepA]).2.2 (fun _ => rfl) rfl⟩

/-- C7: For every node with a bound publisher, `get()` invokes the
publisher and returns its result — independently of the stored value;
in particular every read of `sensors/lo_locked` returns the freshly
computed `get_lo_locked` sensor value. -/
theorem claim7_publisher_get (pub : String → Option (Unit → V))
    (st st' : EState V) (n : String) (p : Unit → V) (h : pub n = some p) :
    (getNode pub st n = p () ∧ getNode pub st' n = getNode pub st n)
  ∧ ∀ (ch_name : String) (lo1 lo2 : channel_t → Bool)
      (stS : EState sensor_value_t),
      getNode (lo_locked_pub ch_name lo1 lo2) stS "sensors/lo_locked"
        = get_lo_locked ch_name lo1 lo2 := by
  constructor
  · constructor
    · simp [getNode, h]
    · simp [getNode, h]
  · intro ch_name lo1 lo2 stS
    simp [getNode, lo_locked_pub]

/-- Witness for C7 on the `sensors/lo_locked` publisher. -/
theorem claim7_witness :
    getNode (lo_locked_pub "0" (fun _ => true) (fun _ => true)) sensorState0
        "sensors/lo_locked"
      = get_lo_locked "0" (fun _ => true) (fun _ => true) :=
  ((claim7_publisher_get (lo_locked_pub "0" (fun _ => true) (fun _ => true))
      sensorState0 sensorState0 "sensors/lo_locked"
      (fun _ => get_lo_locked "0" (fun _ => true) (fun _ => true))
      rfl).1).1

/-- C8: `get_lo_locked` reads `locked` iff both `read_lo1_locked` and
`read_lo2_locked` return true for the channel selected by the
front-end name (CH1 when the name is "0", CH2 otherwise); if either LO
is unlocked the sensor reads `unlocked`. -/
theorem claim8_get_lo_locked (ch_name : String)
    (read_lo1_locked read_lo2_locked : channel_t → Bool) :
    ((get_lo_locked ch_name read_lo1_locked read_lo2_locked).unit = "locked"
       ↔ (read_lo1_locked (if ch_name = "0" then .CH1 else .CH2) = true
           ∧ read_lo2_locked (if ch_name = "0" then .CH1 else .CH2) = true))
  ∧ ((get_lo_locked ch_name read_lo1_locked read_lo2_locked).unit = "unlocked"
       ↔ ¬(read_lo1_locked (if ch_name = "0" then .CH1 else .CH2) = true
           ∧ read_lo2_locked (if ch_name = "0" then .CH1 else .CH2) = true)) := by
  cases h1 : read_lo1_locked (if ch_name = "0" then .CH1 else .CH2)
  <;> cases h2 : read_lo2_locked (if ch_name = "0" then .CH1 else .CH2)
  <;> simp [get_lo_locked, sensor_value_bool, h1, h2]

/-- C9: the `bandwidth/value` coercer clips every written value to the
degenerate range [80e6, 80e6]; together with the coerced initial value
80e6, the stored bandwidth equals 80e6 after any sequence of external
writes. -/
theorem claim9_bandwidth_invariant :
    (∀ v : ℚ, bandwidth_coercer v = 80000000)
  ∧ ∀ (vs : List ℚ) (st : EState ℚ), st.val "bandwidth/value" = 80000000 →
      (vs.foldl (fun s v => setNode bandwidth_co "bandwidth/value" v s)
          st).val "bandwidth/value" = 80000000 := by
  have hco : ∀ v : ℚ, bandwidth_coercer v = 80000000 := by
    intro v
    unfold bandwidth_coercer meta_range_clip
    exact max_eq_left (min_le_left _ _)
  refine ⟨hco, ?_⟩
  intro vs
  induction vs with
  | nil => intro st h; exact h
  | cons v vs ih =>
      intro st h
      rw [List.foldl_cons]
      refine ih _ ?_
      rw [setNode_val, if_pos rfl]
      show bandwidth_co "bandwidth/value" v = 80000000
      unfold bandwidth_co
      rw [if_pos rfl]
      exact hco v

/-- Witness for C9: three arbitrary writes leave the stored bandwidth
at 80e6. -/
theorem claim9_witness :
    ([(123456789 : ℚ), 0, 99999999999].foldl
        (fun s v => setNode bandwidth_co "bandwidth/value" v s)
        bwState0).val "bandwidth/value" = 80000000 :=
  claim9_bandwidth_invariant.2 [123456789, 0, 99999999999] bwState0 rfl

/-- C10: `make_twinrx_fe` fails with `uhd::assertion_error` when the
`rx_container` is not a `twinrx_rcvr`; otherwise it returns a front-end
sharing the container's expert and control objects and appends the
sub-device name to the container's front-end name list. -/
theorem claim10_make_twinrx_fe (args : dboard_ctor_args_t) :
    (args.rx_container = .other →
       make_twinrx_fe args
         = .error (.assertion_error "error creating twinrx frontend"))
  ∧ ∀ c : twinrx_rcvr_t, args.rx_container = .twinrx c →
      make_twinrx_fe args =
        .ok ({ expert := c.expert, ctrl := c.ctrl, ch_name := args.sd_name },
             { expert := c.expert, ctrl := c.ctrl,
               fe_names := c.fe_names ++ [args.sd_name] }) := by
  constructor
  · intro h
    rw [make_twinrx_fe, h]
  · intro c h
    rw [make_twinrx_fe, h]

/-- Witness for C10: a real TwinRX container succeeds and shares its
objects; a foreign container yields the assertion error. -/
theorem claim10_witness :
    make_twinrx_fe argsTwinrx =
        .ok ({ expert := 7, ctrl := 9, ch_name := "0" },
             { expert := 7, ctrl := 9, fe_names := ["0"] })
      ∧ make_twinrx_fe argsOther =
        .error (.assertion_error "error creating twinrx frontend") :=
  ⟨(claim10_make_twinrx_fe argsTwinrx).2
      { expert := 7, ctrl := 9, fe_names := [] } rfl,
   (claim10_make_twinrx_fe argsOther).1 rfl⟩

end TwinrxSpec
